import Mathlib

/-!
Verification of the session/connection core of the `client-gtk` chat client
(`src/messages.rs`, `src/connections.rs`) against its specification.

The Rust code is shallowly embedded: the per-channel message store becomes a
pure association list of timelines, the connection registry becomes a pure
association list of lifecycle-wrapped session results, and the effectful
session/transport operations (`Session::new`, `login_with_token`,
`session.read`, `listener.try_read`, DNS resolution) are abstracted as
explicit outcome environments passed to the embedded functions.
-/

namespace ClientGtk

/-! ## Data model: messages (`synac::common::Message`)

Only the fields the embedded algorithms inspect (`id`, `channel`,
`timestamp`) are structural; `author` and `content` stand for the rest of
the wire message so that "second write wins" is observable. -/

structure Message where
  id : Nat
  author : Nat
  channel : Nat
  timestamp : Int
  content : String
deriving DecidableEq, Repr

/-- Timestamp of the `i`-th element of a timeline (default `0` out of range;
the embedded algorithms only consult it in range). -/
def tsAt (msgs : List Message) (i : Nat) : Int :=
  ((msgs[i]?.map Message.timestamp).getD 0)

/-! ## `Messages::add` (src/messages.rs lines 16-40)

`messages.binary_search_by_key(&msg.timestamp, |msg| msg.timestamp)` is the
standard slice binary search: on `Err i` it yields the insertion point, on
`Ok i` some index holding the searched timestamp.  The code then scans
backward to the start of the run of equal timestamps and forward through the
run looking for an entry with the same id (replacing it in place), otherwise
inserts after the run. -/

/-- Rust `slice::binary_search_by_key` on the timestamps of `msgs`,
restricted to the window `[left, right)`.  `Sum.inl i` is `Ok(i)`,
`Sum.inr i` is `Err(i)`. -/
def binSearch (msgs : List Message) (key : Int) (left right : Nat) : Sum Nat Nat :=
  if h : left < right then
    if tsAt msgs (left + (right - left) / 2) < key then
      binSearch msgs key (left + (right - left) / 2 + 1) right
    else if key < tsAt msgs (left + (right - left) / 2) then
      binSearch msgs key left (left + (right - left) / 2)
    else Sum.inl (left + (right - left) / 2)
  else Sum.inr left
termination_by right - left
decreasing_by
  · omega
  · omega

/-- The backward scan `while i > 0 && messages.get(i-1).map(|m| m.timestamp) == original` of
`Messages::add`. -/
def scanBack (msgs : List Message) (origTs : Int) : Nat → Nat
  | 0 => 0
  | i + 1 =>
    if (msgs[i]?.map Message.timestamp) = some origTs then scanBack msgs origTs i
    else i + 1

/-- The forward scan of `Messages::add`: starting at index `i`, replace in
place (`Sum.inl` carries the updated timeline) on the first id match, stop
(`Sum.inr` carries the insertion index) when leaving the run of equal
timestamps or the list.  Note the id test comes first, exactly as in the
source. -/
def scanFwd (msgs : List Message) (m : Message) (origTs : Int) (i : Nat) :
    Sum (List Message) Nat :=
  match h : msgs[i]? with
  | some x =>
    if x.id = m.id then Sum.inl (msgs.set i m)
    else if x.timestamp = origTs then scanFwd msgs m origTs (i + 1)
    else Sum.inr i
  | none => Sum.inr i
termination_by msgs.length - i
decreasing_by
  have : i < msgs.length := by
    by_contra hc
    rw [List.getElem?_eq_none (by omega)] at h
    exact Option.noConfusion h
  omega

/-- `Vec::insert` at index `i` (the embedded algorithms only use it with
`i ≤ msgs.length`). -/
def insertAt (msgs : List Message) (i : Nat) (m : Message) : List Message :=
  msgs.take i ++ m :: msgs.drop i

/-- The timeline-level body of `Messages::add`. -/
def addToTimeline (msgs : List Message) (m : Message) : List Message :=
  match binSearch msgs m.timestamp 0 msgs.length with
  | Sum.inr i => insertAt msgs i m
  | Sum.inl i =>
    match scanFwd msgs m (tsAt msgs i) (scanBack msgs (tsAt msgs i) i) with
    | Sum.inl replaced => replaced
    | Sum.inr k => insertAt msgs k m

/-! ## The message store (`struct Messages`)

`HashMap<usize, Vec<Message>>` is embedded as an association list from
channel to timeline; the `HashMap` key-uniqueness invariant is carried as a
`Nodup` hypothesis where a claim needs it. -/

structure Messages where
  messages : List (Nat × List Message)
deriving DecidableEq, Repr

def Messages.new : Messages := ⟨[]⟩

/-- `self.messages.entry(msg.channel).or_insert_with(Vec::default)` followed
by the timeline insertion. -/
def entryUpd (m : Message) : List (Nat × List Message) → List (Nat × List Message)
  | [] => [(m.channel, addToTimeline [] m)]
  | (c, t) :: rest =>
    if c = m.channel then (c, addToTimeline t m) :: rest
    else (c, t) :: entryUpd m rest

def Messages.add (s : Messages) (m : Message) : Messages :=
  ⟨entryUpd m s.messages⟩

/-- `Messages::remove`: linear scan over the channels, erase the first
timeline entry whose id matches, return its channel. -/
def removeFrom (msgId : Nat) : List (Nat × List Message) →
    Option Nat × List (Nat × List Message)
  | [] => (none, [])
  | (c, t) :: rest =>
    match t.findIdx? (fun m => m.id == msgId) with
    | some i => (some c, (c, t.eraseIdx i) :: rest)
    | none =>
      let r := removeFrom msgId rest
      (r.1, (c, t) :: r.2)

def Messages.remove (s : Messages) (msgId : Nat) : Option Nat × Messages :=
  let r := removeFrom msgId s.messages
  (r.1, ⟨r.2⟩)

def lookupTimeline (ch : Nat) : List (Nat × List Message) → Option (List Message)
  | [] => none
  | (c, t) :: rest => if c = ch then some t else lookupTimeline ch rest

/-- `Messages::get`. -/
def Messages.get (s : Messages) (ch : Nat) : List Message :=
  (lookupTimeline ch s.messages).getD []

/-- `Messages::has`. -/
def Messages.has (s : Messages) (ch : Nat) : Bool :=
  (lookupTimeline ch s.messages).isSome

/-- A sequence of `Messages::add` calls. -/
def addList (s : Messages) (l : List Message) : Messages :=
  l.foldl Messages.add s

/-- Sortedness of a timeline: timestamps are non-decreasing in index order. -/
def sortedTL (t : List Message) : Prop :=
  ∀ a b : Nat, a ≤ b → b < t.length → tsAt t a ≤ tsAt t b

/-! ## Correctness of the embedded binary search -/

theorem binSearch_ok_aux (msgs : List Message) (key : Int) :
    ∀ fuel left right i, right - left ≤ fuel →
      binSearch msgs key left right = Sum.inl i →
      left ≤ i ∧ i < right ∧ tsAt msgs i = key := by
  intro fuel
  induction fuel with
  | zero =>
    intro left right i hf h
    rw [binSearch] at h
    have hlr : ¬ left < right := by omega
    simp [hlr] at h
  | succ n ih =>
    intro left right i hf h
    rw [binSearch] at h
    by_cases hlr : left < right
    · simp only [dif_pos hlr] at h
      by_cases h1 : tsAt msgs (left + (right - left) / 2) < key
      · rw [if_pos h1] at h
        have := ih (left + (right - left) / 2 + 1) right i (by omega) h
        exact ⟨by omega, this.2.1, this.2.2⟩
      · rw [if_neg h1] at h
        by_cases h2 : key < tsAt msgs (left + (right - left) / 2)
        · rw [if_pos h2] at h
          have := ih left (left + (right - left) / 2) i (by omega) h
          exact ⟨this.1, by omega, this.2.2⟩
        · rw [if_neg h2] at h
          have hi : left + (right - left) / 2 = i := Sum.inl.inj h
          refine ⟨by omega, by omega, ?_⟩
          rw [← hi]; omega
    · rw [dif_neg hlr] at h
      exact absurd h (by simp)

theorem binSearch_ok (msgs : List Message) (key : Int) (left right i : Nat)
    (h : binSearch msgs key left right = Sum.inl i) :
    left ≤ i ∧ i < right ∧ tsAt msgs i = key :=
  binSearch_ok_aux msgs key (right - left) left right i (le_refl _) h

theorem binSearch_err_aux (msgs : List Message) (key : Int)
    (hmono : ∀ a b : Nat, a ≤ b → b < msgs.length → tsAt msgs a ≤ tsAt msgs b) :
    ∀ fuel left right i, right - left ≤ fuel → left ≤ right → right ≤ msgs.length →
      (∀ j, j < left → tsAt msgs j < key) →
      (∀ j, right ≤ j → j < msgs.length → key < tsAt msgs j) →
      binSearch msgs key left right = Sum.inr i →
      left ≤ i ∧ i ≤ right ∧ (∀ j, j < i → tsAt msgs j < key) ∧
        (∀ j, i ≤ j → j < msgs.length → key < tsAt msgs j) := by
  intro fuel
  induction fuel with
  | zero =>
    intro left right i hf hlr hrl hpre hpost h
    rw [binSearch] at h
    have hnlt : ¬ left < right := by omega
    rw [dif_neg hnlt] at h
    have heq : left = i := Sum.inr.inj h
    have hlr2 : left = right := by omega
    subst heq
    exact ⟨le_refl _, by omega, hpre, fun j hj hj2 => hpost j (by omega) hj2⟩
  | succ n ih =>
    intro left right i hf hlr hrl hpre hpost h
    rw [binSearch] at h
    by_cases hltr : left < right
    · simp only [dif_pos hltr] at h
      have hmidlt : left + (right - left) / 2 < right := by omega
      have hmidlen : left + (right - left) / 2 < msgs.length := by omega
      by_cases h1 : tsAt msgs (left + (right - left) / 2) < key
      · rw [if_pos h1] at h
        have hpre2 : ∀ j, j < left + (right - left) / 2 + 1 → tsAt msgs j < key := by
          intro j hj
          by_cases hjl : j < left
          · exact hpre j hjl
          · have hle : tsAt msgs j ≤ tsAt msgs (left + (right - left) / 2) :=
              hmono j _ (by omega) hmidlen
            omega
        have := ih (left + (right - left) / 2 + 1) right i (by omega) (by omega) hrl hpre2 hpost h
        exact ⟨by omega, this.2.1, this.2.2⟩
      · rw [if_neg h1] at h
        by_cases h2 : key < tsAt msgs (left + (right - left) / 2)
        · rw [if_pos h2] at h
          have hpost2 : ∀ j, left + (right - left) / 2 ≤ j → j < msgs.length →
              key < tsAt msgs j := by
            intro j hj hj2
            have hle : tsAt msgs (left + (right - left) / 2) ≤ tsAt msgs j :=
              hmono _ j hj hj2
            omega
          have := ih left (left + (right - left) / 2) i (by omega) (by omega) (by omega)
            hpre hpost2 h
          exact ⟨this.1, by omega, this.2.2⟩
        · rw [if_neg h2] at h
          exact absurd h (by simp)
    · rw [dif_neg hltr] at h
      have heq : left = i := Sum.inr.inj h
      have hlr2 : left = right := by omega
      subst heq
      exact ⟨le_refl _, by omega, hpre, fun j hj hj2 => hpost j (by omega) hj2⟩

/-- On a sorted timeline, `Err i` from the binary search is the unique
insertion point for an absent key. -/
theorem binSearch_err (msgs : List Message) (key : Int) (i : Nat)
    (hs : sortedTL msgs)
    (h : binSearch msgs key 0 msgs.length = Sum.inr i) :
    i ≤ msgs.length ∧ (∀ j, j < i → tsAt msgs j < key) ∧
      (∀ j, i ≤ j → j < msgs.length → key < tsAt msgs j) := by
  have := binSearch_err_aux msgs key hs msgs.length 0 msgs.length i (by omega) (by omega)
    (le_refl _) (by omega) (by omega) h
  exact ⟨this.2.1, this.2.2⟩

/-- On a sorted timeline containing the key, the binary search returns `Ok`. -/
theorem binSearch_inl_of_mem (msgs : List Message) (key : Int) (p : Nat)
    (hs : sortedTL msgs) (hp : p < msgs.length) (hkey : tsAt msgs p = key) :
    ∃ i, binSearch msgs key 0 msgs.length = Sum.inl i ∧ i < msgs.length ∧
      tsAt msgs i = key := by
  rcases h : binSearch msgs key 0 msgs.length with i | i
  · have := binSearch_ok msgs key 0 msgs.length i h
    exact ⟨i, rfl, this.2.1, this.2.2⟩
  · exfalso
    have herr := binSearch_err msgs key i hs h
    by_cases hpi : p < i
    · have := herr.2.1 p hpi
      omega
    · have := herr.2.2 p (by omega) hp
      omega

/-! ## Correctness of the two duplicate-timestamp scans -/

/-- The backward scan lands at the start of the run of entries with
timestamp `origTs` that ends at its starting index. -/
theorem scanBack_spec (msgs : List Message) (origTs : Int) (i : Nat) :
    scanBack msgs origTs i ≤ i ∧
      (∀ k, scanBack msgs origTs i ≤ k → k < i →
        (msgs[k]?.map Message.timestamp) = some origTs) ∧
      (scanBack msgs origTs i = 0 ∨
        (msgs[scanBack msgs origTs i - 1]?.map Message.timestamp) ≠ some origTs) := by
  induction i with
  | zero => exact ⟨le_refl _, fun k h1 h2 => absurd h2 (by omega), Or.inl rfl⟩
  | succ n ih =>
    rw [scanBack]
    by_cases h : (msgs[n]?.map Message.timestamp) = some origTs
    · rw [if_pos h]
      refine ⟨le_trans ih.1 (by omega), ?_, ih.2.2⟩
      intro k h1 h2
      by_cases h3 : k < n
      · exact ih.2.1 k h1 h3
      · have hk : k = n := by omega
        rw [hk]; exact h
    · rw [if_neg h]
      exact ⟨le_refl _, fun k h1 h2 => absurd h2 (by omega), Or.inr (by simpa using h)⟩

/-- Full characterisation of the forward scan: it either replaces in place
the first id match reached (`Sum.inl`), or stops at the first index that
leaves both the list and the run of equal timestamps without matching
(`Sum.inr`); all indices walked over carry `origTs` and a different id. -/
theorem scanFwd_spec_aux (msgs : List Message) (m : Message) (origTs : Int) :
    ∀ fuel i, msgs.length - i ≤ fuel → i ≤ msgs.length →
      (∃ p, i ≤ p ∧ p < msgs.length ∧ (msgs[p]?.map Message.id) = some m.id ∧
        (∀ k, i ≤ k → k < p → (msgs[k]?.map Message.id) ≠ some m.id ∧
          (msgs[k]?.map Message.timestamp) = some origTs) ∧
        scanFwd msgs m origTs i = Sum.inl (msgs.set p m)) ∨
      (∃ e, i ≤ e ∧ e ≤ msgs.length ∧
        (∀ k, i ≤ k → k < e → (msgs[k]?.map Message.id) ≠ some m.id ∧
          (msgs[k]?.map Message.timestamp) = some origTs) ∧
        (e = msgs.length ∨ ((msgs[e]?.map Message.id) ≠ some m.id ∧
          (msgs[e]?.map Message.timestamp) ≠ some origTs)) ∧
        scanFwd msgs m origTs i = Sum.inr e) := by
  intro fuel
  induction fuel with
  | zero =>
    intro i hf hi
    have hlen : i = msgs.length := by omega
    have hnone : msgs[i]? = none := List.getElem?_eq_none (by omega)
    right
    refine ⟨i, le_refl _, hi, fun k h1 h2 => absurd h2 (by omega), Or.inl hlen, ?_⟩
    rw [scanFwd]
    split
    · rename_i x hx; rw [hnone] at hx; exact Option.noConfusion hx
    · rfl
  | succ n ih =>
    intro i hf hi
    rcases hx : msgs[i]? with _ | x
    · have hlen : i = msgs.length := by
        have := List.getElem?_eq_none (l := msgs) (n := i)
        by_contra hc
        have hilt : i < msgs.length := by omega
        rw [List.getElem?_eq_getElem hilt] at hx
        exact Option.noConfusion hx
      right
      refine ⟨i, le_refl _, hi, fun k h1 h2 => absurd h2 (by omega), Or.inl hlen, ?_⟩
      rw [scanFwd]
      split
      · rename_i y hy; rw [hx] at hy; exact Option.noConfusion hy
      · rfl
    · have hilt : i < msgs.length := by
        by_contra hc
        rw [List.getElem?_eq_none (by omega)] at hx
        exact Option.noConfusion hx
      by_cases hid : x.id = m.id
      · left
        refine ⟨i, le_refl _, hilt, by rw [hx]; simp [hid], fun k h1 h2 => absurd h2 (by omega), ?_⟩
        rw [scanFwd]
        split
        · rename_i y hy
          rw [hx] at hy
          have hxy : x = y := Option.some.inj hy
          subst hxy
          rw [if_pos hid]
        · rename_i hy; rw [hx] at hy; exact Option.noConfusion hy
      · by_cases hts : x.timestamp = origTs
        · -- walk forward
          have hrec := ih (i + 1) (by omega) (by omega)
          have hstep : scanFwd msgs m origTs i = scanFwd msgs m origTs (i + 1) := by
            rw [scanFwd]
            split
            · rename_i y hy
              rw [hx] at hy
              have hxy : x = y := Option.some.inj hy
              subst hxy
              rw [if_neg hid, if_pos hts]
            · rename_i hy; rw [hx] at hy; exact Option.noConfusion hy
          have hwalk : (msgs[i]?.map Message.id) ≠ some m.id ∧
              (msgs[i]?.map Message.timestamp) = some origTs := by
            rw [hx]
            constructor
            · simp only [Option.map_some']
              intro hc
              exact hid (Option.some.inj hc)
            · simp [hts]
          rcases hrec with ⟨p, hp1, hp2, hp3, hp4, hp5⟩ | ⟨e, he1, he2, he3, he4, he5⟩
          · left
            refine ⟨p, by omega, hp2, hp3, ?_, by rw [hstep]; exact hp5⟩
            intro k h1 h2
            by_cases hk : k = i
            · rw [hk]; exact hwalk
            · exact hp4 k (by omega) h2
          · right
            refine ⟨e, by omega, he2, ?_, he4, by rw [hstep]; exact he5⟩
            intro k h1 h2
            by_cases hk : k = i
            · rw [hk]; exact hwalk
            · exact he3 k (by omega) h2
        · -- stop: leaving the run
          right
          refine ⟨i, le_refl _, hi, fun k h1 h2 => absurd h2 (by omega), ?_, ?_⟩
          · right
            rw [hx]
            constructor
            · simp only [Option.map_some']
              intro hc
              exact hid (Option.some.inj hc)
            · simp only [Option.map_some']
              intro hc
              exact hts (Option.some.inj hc)
          · rw [scanFwd]
            split
            · rename_i y hy
              rw [hx] at hy
              have hxy : x = y := Option.some.inj hy
              subst hxy
              rw [if_neg hid, if_neg hts]
            · rename_i hy
              rw [hx] at hy

theorem scanFwd_spec (msgs : List Message) (m : Message) (origTs : Int) (i : Nat)
    (hi : i ≤ msgs.length) :
    (∃ p, i ≤ p ∧ p < msgs.length ∧ (msgs[p]?.map Message.id) = some m.id ∧
      (∀ k, i ≤ k → k < p → (msgs[k]?.map Message.id) ≠ some m.id ∧
        (msgs[k]?.map Message.timestamp) = some origTs) ∧
      scanFwd msgs m origTs i = Sum.inl (msgs.set p m)) ∨
    (∃ e, i ≤ e ∧ e ≤ msgs.length ∧
      (∀ k, i ≤ k → k < e → (msgs[k]?.map Message.id) ≠ some m.id ∧
        (msgs[k]?.map Message.timestamp) = some origTs) ∧
      (e = msgs.length ∨ ((msgs[e]?.map Message.id) ≠ some m.id ∧
        (msgs[e]?.map Message.timestamp) ≠ some origTs)) ∧
      scanFwd msgs m origTs i = Sum.inr e) :=
  scanFwd_spec_aux msgs m origTs (msgs.length - i) i (le_refl _) hi

/-! ## Index bookkeeping for `insertAt` and `List.set` -/

theorem length_insertAt (msgs : List Message) (i : Nat) (m : Message)
    (h : i ≤ msgs.length) : (insertAt msgs i m).length = msgs.length + 1 := by
  simp only [insertAt, List.length_append, List.length_take, List.length_cons,
    List.length_drop]
  omega

theorem length_take_of_le (msgs : List Message) (i : Nat) (h : i ≤ msgs.length) :
    (msgs.take i).length = i := by
  simp only [List.length_take]
  omega

theorem getElem?_insertAt_lt (msgs : List Message) (i j : Nat) (m : Message)
    (hj : j < i) (hi : i ≤ msgs.length) : (insertAt msgs i m)[j]? = msgs[j]? := by
  unfold insertAt
  rw [List.getElem?_append]
  rw [if_pos (by rw [length_take_of_le msgs i hi]; omega), List.getElem?_take,
    if_pos hj]

theorem getElem?_insertAt_self (msgs : List Message) (i : Nat) (m : Message)
    (hi : i ≤ msgs.length) : (insertAt msgs i m)[i]? = some m := by
  unfold insertAt
  rw [List.getElem?_append]
  rw [if_neg (by rw [length_take_of_le msgs i hi]; omega), length_take_of_le msgs i hi]
  simp

theorem getElem?_insertAt_gt (msgs : List Message) (i j : Nat) (m : Message)
    (hj : i < j) (hi : i ≤ msgs.length) :
    (insertAt msgs i m)[j]? = msgs[j - 1]? := by
  unfold insertAt
  rw [List.getElem?_append]
  rw [if_neg (by rw [length_take_of_le msgs i hi]; omega), length_take_of_le msgs i hi]
  have hsub : j - i = (j - i - 1) + 1 := by omega
  rw [hsub, List.getElem?_cons_succ, List.getElem?_drop]
  have : i + (j - i - 1) = j - 1 := by omega
  rw [this]

theorem tsAt_of_map_eq (msgs : List Message) (k : Nat) (v : Int)
    (h : (msgs[k]?.map Message.timestamp) = some v) : tsAt msgs k = v := by
  simp only [tsAt, h, Option.getD_some]

theorem map_ts_eq_of_lt (msgs : List Message) (k : Nat) (hk : k < msgs.length) :
    (msgs[k]?.map Message.timestamp) = some (tsAt msgs k) := by
  rw [List.getElem?_eq_getElem hk]
  simp [tsAt, List.getElem?_eq_getElem hk]

theorem tsAt_insertAt_lt (msgs : List Message) (i j : Nat) (m : Message)
    (hj : j < i) (hi : i ≤ msgs.length) :
    tsAt (insertAt msgs i m) j = tsAt msgs j := by
  simp only [tsAt, getElem?_insertAt_lt msgs i j m hj hi]

theorem tsAt_insertAt_self (msgs : List Message) (i : Nat) (m : Message)
    (hi : i ≤ msgs.length) : tsAt (insertAt msgs i m) i = m.timestamp := by
  simp only [tsAt, getElem?_insertAt_self msgs i m hi, Option.map_some', Option.getD_some]

theorem tsAt_insertAt_gt (msgs : List Message) (i j : Nat) (m : Message)
    (hj : i < j) (hi : i ≤ msgs.length) :
    tsAt (insertAt msgs i m) j = tsAt msgs (j - 1) := by
  simp only [tsAt, getElem?_insertAt_gt msgs i j m hj hi]

theorem tsAt_set_self (msgs : List Message) (p : Nat) (m : Message)
    (hp : p < msgs.length) : tsAt (msgs.set p m) p = m.timestamp := by
  simp [tsAt, List.getElem?_set, hp]

theorem tsAt_set_other (msgs : List Message) (p j : Nat) (m : Message)
    (hne : p ≠ j) : tsAt (msgs.set p m) j = tsAt msgs j := by
  simp [tsAt, List.getElem?_set, hne]

/-! ## Characterisation of `addToTimeline` on sorted timelines -/

/-- Master case analysis of `Messages::add`'s timeline insertion on a sorted
timeline: either the message is inserted at an index `e` that lies after
every entry with timestamp ≤ its own and before every entry with a strictly
larger timestamp, or an entry carrying the same id is replaced in place. -/
theorem addToTimeline_cases (msgs : List Message) (m : Message) (hs : sortedTL msgs) :
    (∃ e, e ≤ msgs.length ∧ addToTimeline msgs m = insertAt msgs e m ∧
      (∀ j, j < e → tsAt msgs j ≤ m.timestamp) ∧
      (∀ j, e ≤ j → j < msgs.length → m.timestamp < tsAt msgs j)) ∨
    (∃ p, p < msgs.length ∧ (msgs[p]?.map Message.id) = some m.id ∧
      addToTimeline msgs m = msgs.set p m ∧
      (∀ j, j < p → tsAt msgs j ≤ m.timestamp) ∧ m.timestamp ≤ tsAt msgs p) := by
  rcases hbs : binSearch msgs m.timestamp 0 msgs.length with i | i
  · -- Ok(i): timestamp collision, scan the run
    obtain ⟨-, hilen, hkey⟩ := binSearch_ok msgs m.timestamp 0 msgs.length i hbs
    obtain ⟨hjle, hwalkb, hbound⟩ := scanBack_spec msgs m.timestamp i
    set j := scanBack msgs m.timestamp i with hj
    have hjlen : j ≤ msgs.length := by omega
    have hrun : ∀ k, j ≤ k → k ≤ i → tsAt msgs k = m.timestamp := by
      intro k h1 h2
      rcases Nat.lt_or_ge k i with h3 | h3
      · exact tsAt_of_map_eq msgs k _ (hwalkb k h1 h3)
      · have : k = i := by omega
        rw [this]; exact hkey
    have htsj : tsAt msgs j = m.timestamp := hrun j (le_refl _) hjle
    have heq0 : addToTimeline msgs m =
        match scanFwd msgs m (tsAt msgs i) (scanBack msgs (tsAt msgs i) i) with
        | Sum.inl replaced => replaced
        | Sum.inr k => insertAt msgs k m := by
      unfold addToTimeline
      rw [hbs]
    rw [hkey, ← hj] at heq0
    rcases scanFwd_spec msgs m m.timestamp j hjlen with
      ⟨p, hp1, hp2, hp3, hp4, hp5⟩ | ⟨e, he1, he2, he3, he4, he5⟩
    · -- replaced in place
      right
      refine ⟨p, hp2, hp3, by rw [heq0, hp5], ?_, ?_⟩
      · intro q hq
        rcases Nat.lt_or_ge q j with h3 | h3
        · have := hs q j h3.le (by omega)
          omega
        · have := (hp4 q h3 hq).2
          have := tsAt_of_map_eq msgs q _ this
          omega
      · have := hs j p hp1 hp2
        omega
    · -- insert after the run
      left
      have hej : j < e := by
        rcases Nat.lt_or_ge j e with h3 | h3
        · exact h3
        · exfalso
          have hje : e = j := by omega
          rcases he4 with h4 | h4
          · omega
          · rw [hje] at h4
            exact h4.2 (by rw [map_ts_eq_of_lt msgs j (by omega), htsj])
      refine ⟨e, he2, by rw [heq0, he5], ?_, ?_⟩
      · intro q hq
        rcases Nat.lt_or_ge q j with h3 | h3
        · have := hs q j h3.le (by omega)
          omega
        · have := (he3 q h3 hq).2
          have := tsAt_of_map_eq msgs q _ this
          omega
      · intro q hq hqlen
        have helen : e < msgs.length := by omega
        have htse_ne : tsAt msgs e ≠ m.timestamp := by
          rcases he4 with h4 | h4
          · omega
          · intro hc
            exact h4.2 (by rw [map_ts_eq_of_lt msgs e helen, hc])
        have htse_ge : m.timestamp ≤ tsAt msgs e := by
          have h5 := (he3 (e - 1) (by omega) (by omega)).2
          have h6 := tsAt_of_map_eq msgs (e - 1) _ h5
          have := hs (e - 1) e (by omega) helen
          omega
        have := hs e q hq hqlen
        omega
  · -- Err(i): plain insertion point
    obtain ⟨hile, hlo, hhi⟩ := binSearch_err msgs m.timestamp i hs hbs
    left
    refine ⟨i, hile, ?_, fun j hj => (hlo j hj).le, hhi⟩
    unfold addToTimeline
    rw [hbs]

/-- When the inserted id is fresh, `addToTimeline` is a pure sorted insertion
placed after the whole run of equal timestamps. -/
theorem addToTimeline_insert_fresh (msgs : List Message) (m : Message)
    (hs : sortedTL msgs) (hid : ∀ x ∈ msgs, x.id ≠ m.id) :
    ∃ e, e ≤ msgs.length ∧ addToTimeline msgs m = insertAt msgs e m ∧
      (∀ j, j < e → tsAt msgs j ≤ m.timestamp) ∧
      (∀ j, e ≤ j → j < msgs.length → m.timestamp < tsAt msgs j) := by
  rcases addToTimeline_cases msgs m hs with h | ⟨p, hp1, hp2, -, -, -⟩
  · exact h
  · exfalso
    rcases hx : msgs[p]? with _ | x
    · rw [hx] at hp2; exact Option.noConfusion hp2
    · rw [hx] at hp2
      simp only [Option.map_some'] at hp2
      exact hid x (List.getElem?_mem hx) (Option.some.inj hp2)

/-- When the timeline holds exactly one entry with the inserted id, at the
same timestamp, `addToTimeline` replaces that entry in place. -/
theorem addToTimeline_update (msgs : List Message) (m : Message) (p : Nat)
    (hs : sortedTL msgs) (hp : p < msgs.length)
    (hpid : (msgs[p]?.map Message.id) = some m.id)
    (hpts : (msgs[p]?.map Message.timestamp) = some m.timestamp)
    (huniq : ∀ q, q < msgs.length → (msgs[q]?.map Message.id) = some m.id → q = p) :
    addToTimeline msgs m = msgs.set p m := by
  have htsp : tsAt msgs p = m.timestamp := tsAt_of_map_eq msgs p _ hpts
  rcases hbs : binSearch msgs m.timestamp 0 msgs.length with i | i
  · obtain ⟨-, hilen, hkey⟩ := binSearch_ok msgs m.timestamp 0 msgs.length i hbs
    obtain ⟨hjle, hwalkb, hbound⟩ := scanBack_spec msgs m.timestamp i
    set j := scanBack msgs m.timestamp i with hj
    have hjlen : j ≤ msgs.length := by omega
    have hrun : ∀ k, j ≤ k → k ≤ i → tsAt msgs k = m.timestamp := by
      intro k h1 h2
      rcases Nat.lt_or_ge k i with h3 | h3
      · exact tsAt_of_map_eq msgs k _ (hwalkb k h1 h3)
      · have : k = i := by omega
        rw [this]; exact hkey
    have hpj : j ≤ p := by
      by_contra hc
      have hj1 : 1 ≤ j := by omega
      rcases hbound with h4 | h4
      · omega
      · apply h4
        have hts1 : tsAt msgs (j - 1) ≤ tsAt msgs i := hs (j - 1) i (by omega) hilen
        have hts2 : tsAt msgs p ≤ tsAt msgs (j - 1) := hs p (j - 1) (by omega) (by omega)
        have : tsAt msgs (j - 1) = m.timestamp := by
          rw [hkey] at hts1
          omega
        rw [map_ts_eq_of_lt msgs (j - 1) (by omega), this]
    have heq0 : addToTimeline msgs m =
        match scanFwd msgs m (tsAt msgs i) (scanBack msgs (tsAt msgs i) i) with
        | Sum.inl replaced => replaced
        | Sum.inr k => insertAt msgs k m := by
      unfold addToTimeline
      rw [hbs]
    rw [hkey, ← hj] at heq0
    rcases scanFwd_spec msgs m m.timestamp j hjlen with
      ⟨q, hq1, hq2, hq3, hq4, hq5⟩ | ⟨e, he1, he2, he3, he4, he5⟩
    · have : q = p := huniq q hq2 hq3
      rw [heq0, hq5, this]
    · exfalso
      rcases Nat.lt_trichotomy p e with h4 | h4 | h4
      · exact (he3 p hpj h4).1 hpid
      · rcases he4 with h5 | h5
        · omega
        · rw [← h4] at h5
          exact h5.1 hpid
      · have helen : e < msgs.length := by omega
        have htsj : tsAt msgs j = m.timestamp := hrun j (le_refl _) hjle
        have hts1 : tsAt msgs j ≤ tsAt msgs e := hs j e (by omega) helen
        have hts2 : tsAt msgs e ≤ tsAt msgs p := hs e p (by omega) hp
        have htse : tsAt msgs e = m.timestamp := by omega
        rcases he4 with h5 | h5
        · omega
        · exact h5.2 (by rw [map_ts_eq_of_lt msgs e helen, htse])
  · exfalso
    obtain ⟨-, hlo, hhi⟩ := binSearch_err msgs m.timestamp i hs hbs
    rcases Nat.lt_or_ge p i with h3 | h3
    · have := hlo p h3
      omega
    · have := hhi p h3 hp
      omega

/-- `addToTimeline` unconditionally preserves sortedness. -/
theorem addToTimeline_sorted (msgs : List Message) (m : Message)
    (hs : sortedTL msgs) : sortedTL (addToTimeline msgs m) := by
  rcases addToTimeline_cases msgs m hs with
    ⟨e, he1, he2, he3, he4⟩ | ⟨p, hp1, -, hp2, hp3, hp4⟩
  · rw [he2]
    intro a b hab hb
    rw [length_insertAt msgs e m he1] at hb
    rcases Nat.lt_trichotomy b e with hbe | hbe | hbe
    · rw [tsAt_insertAt_lt msgs e a m (by omega) he1,
        tsAt_insertAt_lt msgs e b m hbe he1]
      exact hs a b hab (by omega)
    · subst hbe
      rw [tsAt_insertAt_self msgs b m he1]
      rcases Nat.lt_or_ge a b with hax | hax
      · rw [tsAt_insertAt_lt msgs b a m hax he1]
        exact he3 a hax
      · have : a = b := by omega
        rw [this, tsAt_insertAt_self msgs b m he1]
    · rw [tsAt_insertAt_gt msgs e b m hbe he1]
      have hb1 : b - 1 < msgs.length := by omega
      rcases Nat.lt_trichotomy a e with hae | hae | hae
      · rw [tsAt_insertAt_lt msgs e a m hae he1]
        have h5 := he3 a hae
        have h6 := he4 (b - 1) (by omega) hb1
        omega
      · subst hae
        rw [tsAt_insertAt_self msgs a m he1]
        exact (he4 (b - 1) (by omega) hb1).le
      · rw [tsAt_insertAt_gt msgs e a m hae he1]
        exact hs (a - 1) (b - 1) (by omega) hb1
  · rw [hp2]
    intro a b hab hb
    rw [List.length_set] at hb
    rcases Nat.lt_trichotomy a p with hap | hap | hap
    · rw [tsAt_set_other msgs p a m (by omega)]
      rcases Nat.lt_trichotomy b p with hbp | hbp | hbp
      · rw [tsAt_set_other msgs p b m (by omega)]
        exact hs a b hab hb
      · subst hbp
        rw [tsAt_set_self msgs b m hb]
        exact hp3 a hap
      · rw [tsAt_set_other msgs p b m (by omega)]
        exact hs a b hab hb
    · subst hap
      rw [tsAt_set_self msgs a m hp1]
      rcases Nat.lt_or_ge a b with hbp | hbp
      · rw [tsAt_set_other msgs a b m (by omega)]
        have := hs a b hab hb
        omega
      · have : a = b := by omega
        rw [← this, tsAt_set_self msgs a m hp1]
    · rw [tsAt_set_other msgs p a m (by omega),
        tsAt_set_other msgs p b m (by omega)]
      exact hs a b hab hb

/-! ## Store-level lemmas: channel lookup under `add` and `remove` -/

theorem lookupTimeline_entryUpd_self (m : Message) (l : List (Nat × List Message)) :
    lookupTimeline m.channel (entryUpd m l) =
      some (addToTimeline ((lookupTimeline m.channel l).getD []) m) := by
  induction l with
  | nil => simp [entryUpd, lookupTimeline]
  | cons hd tl ih =>
    obtain ⟨c, t⟩ := hd
    by_cases h : c = m.channel
    · subst h
      simp [entryUpd, lookupTimeline]
    · simp only [entryUpd, if_neg h, lookupTimeline]
      exact ih

theorem lookupTimeline_entryUpd_other (m : Message) (ch : Nat)
    (l : List (Nat × List Message)) (h : ch ≠ m.channel) :
    lookupTimeline ch (entryUpd m l) = lookupTimeline ch l := by
  induction l with
  | nil => simp [entryUpd, lookupTimeline, Ne.symm h]
  | cons hd tl ih =>
    obtain ⟨c, t⟩ := hd
    by_cases hc : c = m.channel
    · subst hc
      simp only [entryUpd, if_pos rfl, lookupTimeline]
      rw [if_neg (fun hc2 => h hc2.symm), if_neg (fun hc2 => h hc2.symm)]
    · simp only [entryUpd, if_neg hc, lookupTimeline]
      by_cases hc2 : c = ch
      · rw [if_pos hc2, if_pos hc2]
      · rw [if_neg hc2, if_neg hc2]
        exact ih

theorem get_add_self (s : Messages) (m : Message) :
    (s.add m).get m.channel = addToTimeline (s.get m.channel) m := by
  simp [Messages.get, Messages.add, lookupTimeline_entryUpd_self]

theorem get_add_other (s : Messages) (m : Message) (ch : Nat) (h : ch ≠ m.channel) :
    (s.add m).get ch = s.get ch := by
  simp [Messages.get, Messages.add, lookupTimeline_entryUpd_other m ch s.messages h]

theorem has_add_self (s : Messages) (m : Message) :
    (s.add m).has m.channel = true := by
  simp [Messages.has, Messages.add, lookupTimeline_entryUpd_self]

theorem has_add_mono (s : Messages) (m : Message) (ch : Nat)
    (h : s.has ch = true) : (s.add m).has ch = true := by
  by_cases hc : ch = m.channel
  · subst hc
    exact has_add_self s m
  · simpa [Messages.has, Messages.add,
      lookupTimeline_entryUpd_other m ch s.messages hc] using h

theorem lookupTimeline_removeFrom_isSome (n ch : Nat) (l : List (Nat × List Message)) :
    (lookupTimeline ch (removeFrom n l).2).isSome = (lookupTimeline ch l).isSome := by
  induction l with
  | nil => simp [removeFrom]
  | cons hd tl ih =>
    obtain ⟨c, t⟩ := hd
    rcases hidx : t.findIdx? (fun m => m.id == n) with _ | i
    · simp only [removeFrom, hidx, lookupTimeline]
      by_cases hc : c = ch
      · rw [if_pos hc, if_pos hc]
      · rw [if_neg hc, if_neg hc]
        exact ih
    · simp only [removeFrom, hidx, lookupTimeline]
      by_cases hc : c = ch
      · rw [if_pos hc, if_pos hc]
        rfl
      · rw [if_neg hc, if_neg hc]

theorem has_remove (s : Messages) (n ch : Nat) :
    (s.remove n).2.has ch = s.has ch := by
  simp [Messages.has, Messages.remove, lookupTimeline_removeFrom_isSome]

theorem lookup_eq_of_mem_nodup (l : List (Nat × List Message)) (c : Nat)
    (t : List Message) (hk : (l.map Prod.fst).Nodup) (h : (c, t) ∈ l) :
    lookupTimeline c l = some t := by
  induction l with
  | nil => exact absurd h (List.not_mem_nil _)
  | cons hd tl ih =>
    obtain ⟨c2, t2⟩ := hd
    rcases List.mem_cons.mp h with h2 | h2
    · have hc : c2 = c := (Prod.ext_iff.mp h2.symm).1
      have ht : t2 = t := (Prod.ext_iff.mp h2.symm).2
      subst hc
      subst ht
      simp [lookupTimeline]
    · simp only [lookupTimeline]
      by_cases hc : c2 = c
      · exfalso
        subst hc
        have : c2 ∈ tl.map Prod.fst := List.mem_map.mpr ⟨(c2, t), h2, rfl⟩
        exact (List.nodup_cons.mp hk).1 this
      · rw [if_neg hc]
        exact ih (List.nodup_cons.mp hk).2 h2

theorem removeFrom_not_found (n : Nat) (l : List (Nat × List Message))
    (h : ∀ c t, (c, t) ∈ l → ∀ x ∈ t, x.id ≠ n) :
    removeFrom n l = (none, l) := by
  induction l with
  | nil => rfl
  | cons hd tl ih =>
    obtain ⟨c, t⟩ := hd
    have hnone : t.findIdx? (fun m => m.id == n) = none := by
      rw [List.findIdx?_eq_none_iff]
      intro x hx
      simpa using h c t (List.mem_cons_self _ _) x hx
    simp only [removeFrom, hnone]
    rw [ih (fun c2 t2 h2 => h c2 t2 (List.mem_cons_of_mem _ h2))]

theorem removeFrom_found (n : Nat) (l : List (Nat × List Message)) (C : Nat)
    (hC : ∃ t, lookupTimeline C l = some t ∧ ∃ x ∈ t, x.id = n)
    (honly : ∀ c t, (c, t) ∈ l → c ≠ C → ∀ x ∈ t, x.id ≠ n) :
    (removeFrom n l).1 = some C ∧
      ∀ ch, ch ≠ C → lookupTimeline ch (removeFrom n l).2 = lookupTimeline ch l := by
  induction l with
  | nil =>
    obtain ⟨t, ht, -⟩ := hC
    exact absurd ht (by simp [lookupTimeline])
  | cons hd tl ih =>
    obtain ⟨c, t2⟩ := hd
    by_cases hc : c = C
    · subst hc
      obtain ⟨t, ht, x, hx, hxid⟩ := hC
      rw [lookupTimeline, if_pos rfl] at ht
      have ht2 : t2 = t := Option.some.inj ht
      subst ht2
      have hsome : (t2.findIdx? (fun m => m.id == n)).isSome = true := by
        rw [List.findIdx?_isSome, List.any_eq_true]
        exact ⟨x, hx, by simpa using hxid⟩
      rcases hidx : t2.findIdx? (fun m => m.id == n) with _ | i
      · rw [hidx] at hsome
        exact absurd hsome (by simp)
      · simp only [removeFrom, hidx]
        refine ⟨trivial, ?_⟩
        intro ch hch
        simp only [lookupTimeline]
        rw [if_neg (fun h2 => hch h2.symm), if_neg (fun h2 => hch h2.symm)]
    · have hnone : t2.findIdx? (fun m => m.id == n) = none := by
        rw [List.findIdx?_eq_none_iff]
        intro x hx
        simpa using honly c t2 (List.mem_cons_self _ _) hc x hx
      have hC2 : ∃ t, lookupTimeline C tl = some t ∧ ∃ x ∈ t, x.id = n := by
        obtain ⟨t, ht, hex⟩ := hC
        rw [lookupTimeline, if_neg hc] at ht
        exact ⟨t, ht, hex⟩
      have honly2 : ∀ c2 t3, (c2, t3) ∈ tl → c2 ≠ C → ∀ x ∈ t3, x.id ≠ n :=
        fun c2 t3 h2 => honly c2 t3 (List.mem_cons_of_mem _ h2)
      obtain ⟨ih1, ih2⟩ := ih hC2 honly2
      simp only [removeFrom, hnone]
      refine ⟨ih1, ?_⟩
      intro ch hch
      simp only [lookupTimeline]
      by_cases hc2 : c = ch
      · rw [if_pos hc2, if_pos hc2]
      · rw [if_neg hc2, if_neg hc2]
        exact ih2 ch hch

theorem get_new (ch : Nat) : Messages.new.get ch = [] := rfl

theorem sortedTL_nil : sortedTL [] := by
  intro a b hab hb
  simp at hb

theorem set_insertAt_self (msgs : List Message) (e : Nat) (m m2 : Message)
    (h : e ≤ msgs.length) : (insertAt msgs e m).set e m2 = insertAt msgs e m2 := by
  unfold insertAt
  rw [List.set_append, if_neg (by rw [length_take_of_le msgs e h]; omega),
    length_take_of_le msgs e h]
  simp

theorem addList_cons (s : Messages) (m : Message) (l : List Message) :
    addList s (m :: l) = addList (s.add m) l := rfl

theorem addList_sorted_inv (l : List Message) :
    ∀ s : Messages, (∀ ch, sortedTL (s.get ch)) →
      ∀ ch, sortedTL ((addList s l).get ch) := by
  induction l with
  | nil => exact fun s hs ch => hs ch
  | cons m l ih =>
    intro s hs ch
    rw [addList_cons]
    refine ih (s.add m) (fun ch2 => ?_) ch
    by_cases hc : ch2 = m.channel
    · subst hc
      rw [get_add_self]
      exact addToTimeline_sorted _ m (hs _)
    · rw [get_add_other s m ch2 hc]
      exact hs ch2

/-! ## Claims about the Message Store -/

/-- **C1 — counterexample.**  The claim quantifies over *every* store state;
but when the channel already holds the same id at a *different* timestamp
(a state reachable through the public API), adding the same message twice
leaves **two** entries with that id in the timeline, not one:  starting from
a store holding `{id 1, ts 0}`, adding `{id 1, ts 5}` twice yields a timeline
whose two entries both carry id 1. -/
theorem add_twice_existing_id_two_entries :
    ((((Messages.new.add ⟨1, 0, 0, 0, "a"⟩).add ⟨1, 0, 0, 5, "b"⟩).add
        ⟨1, 0, 0, 5, "b"⟩).get 0).countP (fun x => x.id == 1) = 2 := by
  have e1 : Messages.new.add ⟨1, 0, 0, 0, "a"⟩ = ⟨[(0, [⟨1, 0, 0, 0, "a"⟩])]⟩ := by
    simp [Messages.add, Messages.new, entryUpd, addToTimeline, binSearch, tsAt, insertAt]
  have e2 : (⟨[(0, [⟨1, 0, 0, 0, "a"⟩])]⟩ : Messages).add ⟨1, 0, 0, 5, "b"⟩ =
      ⟨[(0, [⟨1, 0, 0, 0, "a"⟩, ⟨1, 0, 0, 5, "b"⟩])]⟩ := by
    simp [Messages.add, entryUpd, addToTimeline, binSearch, scanFwd, scanBack, tsAt, insertAt]
  have b3 : binSearch [⟨1, 0, 0, 0, "a"⟩, ⟨1, 0, 0, 5, "b"⟩] 5 0 2 = Sum.inl 1 := by
    rw [binSearch]
    norm_num [tsAt]
  have sb3 : scanBack [⟨1, 0, 0, 0, "a"⟩, ⟨1, 0, 0, 5, "b"⟩] 5 1 = 1 := by
    rw [scanBack]
    norm_num
  have sf3 : scanFwd [⟨1, 0, 0, 0, "a"⟩, ⟨1, 0, 0, 5, "b"⟩] ⟨1, 0, 0, 5, "b"⟩ 5 1 =
      Sum.inl ([⟨1, 0, 0, 0, "a"⟩, ⟨1, 0, 0, 5, "b"⟩].set 1 ⟨1, 0, 0, 5, "b"⟩) := by
    rw [scanFwd]
    split
    · rename_i x hx
      simp only [List.getElem?_cons_succ, List.getElem?_cons_zero, Option.some.injEq] at hx
      subst hx
      norm_num
    · rename_i hx
      simp at hx
  have e3 : addToTimeline [⟨1, 0, 0, 0, "a"⟩, ⟨1, 0, 0, 5, "b"⟩] ⟨1, 0, 0, 5, "b"⟩ =
      [⟨1, 0, 0, 0, "a"⟩, ⟨1, 0, 0, 5, "b"⟩] := by
    have hts : tsAt [⟨1, 0, 0, 0, "a"⟩, ⟨1, 0, 0, 5, "b"⟩] 1 = 5 := by norm_num [tsAt]
    unfold addToTimeline
    rw [show ([⟨1, 0, 0, 0, "a"⟩, ⟨1, 0, 0, 5, "b"⟩] : List Message).length = 2 from rfl]
    simp only [b3]
    rw [hts, sb3, sf3]
    rfl
  have e4 : (⟨[(0, [⟨1, 0, 0, 0, "a"⟩, ⟨1, 0, 0, 5, "b"⟩])]⟩ : Messages).add
      ⟨1, 0, 0, 5, "b"⟩ = ⟨[(0, [⟨1, 0, 0, 0, "a"⟩, ⟨1, 0, 0, 5, "b"⟩])]⟩ := by
    simp [Messages.add, entryUpd, e3]
  rw [e1, e2, e4]
  rfl

/-- **C1 — amended.**  On a store whose channel timeline is sorted (the
invariant maintained by the API) and does not already hold the message's id,
adding two messages with the same id, channel and timestamp leaves exactly
one entry with that id — the second message — and leaves everything else in
the timeline untouched. -/
theorem add_twice_same_id_upsert (s : Messages) (m1 m2 : Message)
    (hid : m1.id = m2.id) (hch : m1.channel = m2.channel)
    (hts : m1.timestamp = m2.timestamp)
    (hsort : sortedTL (s.get m2.channel))
    (hfresh : ∀ x ∈ s.get m2.channel, x.id ≠ m2.id) :
    ∃ pre suf, ((s.add m1).add m2).get m2.channel = pre ++ m2 :: suf ∧
      s.get m2.channel = pre ++ suf ∧
      (∀ x ∈ pre, x.id ≠ m2.id) ∧ (∀ x ∈ suf, x.id ≠ m2.id) := by
  have hfresh1 : ∀ x ∈ s.get m2.channel, x.id ≠ m1.id := by
    rw [hid]; exact hfresh
  obtain ⟨e, he1, he2, -, -⟩ :=
    addToTimeline_insert_fresh (s.get m2.channel) m1 hsort hfresh1
  have hstep1 : (s.add m1).get m2.channel = insertAt (s.get m2.channel) e m1 := by
    rw [← he2, ← hch, get_add_self, hch]
  have hsort1 : sortedTL ((s.add m1).get m2.channel) := by
    rw [hstep1, ← he2]
    exact addToTimeline_sorted _ m1 hsort
  have hlen1 : ((s.add m1).get m2.channel).length = (s.get m2.channel).length + 1 := by
    rw [hstep1]
    exact length_insertAt _ e m1 he1
  have hpe : ((s.add m1).get m2.channel)[e]? = some m1 := by
    rw [hstep1]
    exact getElem?_insertAt_self _ e m1 he1
  have hupd : addToTimeline ((s.add m1).get m2.channel) m2 =
      ((s.add m1).get m2.channel).set e m2 := by
    refine addToTimeline_update _ m2 e hsort1 (by omega) ?_ ?_ ?_
    · rw [hpe]
      simp only [Option.map_some']
      rw [hid]
    · rw [hpe]
      simp only [Option.map_some']
      rw [hts]
    · intro q hq hqid
      by_contra hqe
      rcases Nat.lt_or_ge q e with h4 | h4
      · rw [hstep1, getElem?_insertAt_lt _ e q m1 h4 he1] at hqid
        rcases hx : (s.get m2.channel)[q]? with _ | x
        · rw [hx] at hqid
          exact Option.noConfusion hqid
        · rw [hx] at hqid
          simp only [Option.map_some'] at hqid
          exact hfresh x (List.getElem?_mem hx) (Option.some.inj hqid)
      · have h5 : e < q := by omega
        rw [hstep1, getElem?_insertAt_gt _ e q m1 h5 he1] at hqid
        rcases hx : (s.get m2.channel)[q - 1]? with _ | x
        · rw [hx] at hqid
          exact Option.noConfusion hqid
        · rw [hx] at hqid
          simp only [Option.map_some'] at hqid
          exact hfresh x (List.getElem?_mem hx) (Option.some.inj hqid)
  refine ⟨(s.get m2.channel).take e, (s.get m2.channel).drop e, ?_, ?_, ?_, ?_⟩
  · rw [get_add_self, hupd, hstep1, set_insertAt_self _ e m1 m2 he1]
    rfl
  · rw [List.take_append_drop]
  · exact fun x hx => hfresh x (List.take_subset e _ hx)
  · exact fun x hx => hfresh x (List.drop_subset e _ hx)

/-- **C1 — witness** for the amended claim, at the empty store with two
messages sharing id 1, channel 0 and timestamp 5. -/
theorem add_twice_same_id_upsert_witness :
    ∃ pre suf,
      ((Messages.new.add ⟨1, 0, 0, 5, "a"⟩).add ⟨1, 0, 0, 5, "b"⟩).get 0 =
        pre ++ (⟨1, 0, 0, 5, "b"⟩ : Message) :: suf ∧
      Messages.new.get 0 = pre ++ suf ∧
      (∀ x ∈ pre, x.id ≠ 1) ∧ (∀ x ∈ suf, x.id ≠ 1) :=
  add_twice_same_id_upsert Messages.new ⟨1, 0, 0, 5, "a"⟩ ⟨1, 0, 0, 5, "b"⟩ rfl rfl rfl
    (by intro a b hab hb; simp [Messages.new, Messages.get, lookupTimeline] at hb)
    (by intro x hx; simp [Messages.new, Messages.get, lookupTimeline] at hx)

/-- **C2.**  (i) After any sequence of insertions starting from the empty
store, every channel's timeline is sorted by timestamp non-decreasing.
(ii) Inserting a message whose id is not yet in the channel splits the old
timeline as `pre ++ suf` with the new message placed exactly between the
entries with timestamp ≤ its own (in particular after the whole run of equal
timestamps, so ties keep first-insertion order) and those strictly larger,
leaving the relative order of all old entries unchanged.  (iii) Inserting a
message whose id is already present at the same timestamp replaces that
entry in place — the only exception to stability. -/
theorem timeline_sorted_and_tie_stable :
    (∀ (l : List Message) (ch : Nat), sortedTL ((addList Messages.new l).get ch)) ∧
    (∀ (s : Messages) (m : Message),
      sortedTL (s.get m.channel) → (∀ x ∈ s.get m.channel, x.id ≠ m.id) →
      ∃ e, e ≤ (s.get m.channel).length ∧
        (s.add m).get m.channel =
          (s.get m.channel).take e ++ m :: (s.get m.channel).drop e ∧
        (∀ j, j < e → tsAt (s.get m.channel) j ≤ m.timestamp) ∧
        (∀ j, e ≤ j → j < (s.get m.channel).length →
          m.timestamp < tsAt (s.get m.channel) j)) ∧
    (∀ (s : Messages) (m : Message) (p : Nat),
      sortedTL (s.get m.channel) → p < (s.get m.channel).length →
      ((s.get m.channel)[p]?.map Message.id) = some m.id →
      ((s.get m.channel)[p]?.map Message.timestamp) = some m.timestamp →
      (∀ q, q < (s.get m.channel).length →
        ((s.get m.channel)[q]?.map Message.id) = some m.id → q = p) →
      (s.add m).get m.channel = (s.get m.channel).set p m) := by
  refine ⟨?_, ?_, ?_⟩
  · intro l ch
    refine addList_sorted_inv l Messages.new (fun ch2 => ?_) ch
    rw [get_new]
    exact sortedTL_nil
  · intro s m hsort hfresh
    obtain ⟨e, he1, he2, he3, he4⟩ :=
      addToTimeline_insert_fresh (s.get m.channel) m hsort hfresh
    exact ⟨e, he1, by rw [get_add_self, he2]; rfl, he3, he4⟩
  · intro s m p hsort hp hpid hpts huniq
    rw [get_add_self]
    exact addToTimeline_update _ m p hsort hp hpid hpts huniq

/-- **C2 — witness**: concrete instances of the three conjuncts. -/
theorem timeline_sorted_and_tie_stable_witness :
    sortedTL ((addList Messages.new [⟨1, 0, 0, 5, "a"⟩, ⟨2, 0, 0, 3, "b"⟩]).get 0) ∧
    (∃ e, e ≤ (Messages.new.get 0).length ∧
      (Messages.new.add ⟨1, 0, 0, 5, "a"⟩).get 0 =
        (Messages.new.get 0).take e ++ (⟨1, 0, 0, 5, "a"⟩ : Message) ::
          (Messages.new.get 0).drop e ∧
      (∀ j, j < e → tsAt (Messages.new.get 0) j ≤ 5) ∧
      (∀ j, e ≤ j → j < (Messages.new.get 0).length → 5 < tsAt (Messages.new.get 0) j)) ∧
    ((⟨[(0, [⟨1, 0, 0, 5, "a"⟩])]⟩ : Messages).add ⟨1, 0, 0, 5, "c"⟩).get 0 =
      ((⟨[(0, [⟨1, 0, 0, 5, "a"⟩])]⟩ : Messages).get 0).set 0 ⟨1, 0, 0, 5, "c"⟩ := by
  refine ⟨timeline_sorted_and_tie_stable.1 _ 0, ?_, ?_⟩
  · exact timeline_sorted_and_tie_stable.2.1 Messages.new ⟨1, 0, 0, 5, "a"⟩
      (by intro a b hab hb; simp [Messages.new, Messages.get, lookupTimeline] at hb)
      (by intro x hx; simp [Messages.new, Messages.get, lookupTimeline] at hx)
  · exact timeline_sorted_and_tie_stable.2.2 (⟨[(0, [⟨1, 0, 0, 5, "a"⟩])]⟩ : Messages)
      ⟨1, 0, 0, 5, "c"⟩ 0
      (by intro a b hab hb
          simp [Messages.get, lookupTimeline] at hb
          have ha : a = b := by omega
          rw [ha])
      (by simp [Messages.get, lookupTimeline])
      (by simp [Messages.get, lookupTimeline])
      (by simp [Messages.get, lookupTimeline])
      (by intro q hq hqid
          simp [Messages.get, lookupTimeline] at hq
          omega)

/-- **C6.**  Removing an id present exactly in channel `C` returns `C` and
leaves every other channel's timeline unchanged; removing an id present in
no channel returns `none` and leaves the store untouched.  (The `Nodup`
hypothesis is the key-uniqueness invariant of the underlying `HashMap`.) -/
theorem remove_found_frame_and_absent_noop :
    (∀ (s : Messages) (n C : Nat),
      (s.messages.map Prod.fst).Nodup →
      (∃ x ∈ s.get C, x.id = n) →
      (∀ ch, ch ≠ C → ∀ x ∈ s.get ch, x.id ≠ n) →
      (s.remove n).1 = some C ∧
        ∀ ch, ch ≠ C → (s.remove n).2.get ch = s.get ch) ∧
    (∀ (s : Messages) (n : Nat),
      (s.messages.map Prod.fst).Nodup →
      (∀ ch, ∀ x ∈ s.get ch, x.id ≠ n) →
      s.remove n = (none, s)) := by
  constructor
  · intro s n C hkeys hC honly
    rcases hl : lookupTimeline C s.messages with _ | t
    · exfalso
      obtain ⟨x, hx, -⟩ := hC
      rw [Messages.get, hl] at hx
      simp at hx
    · have hC2 : ∃ t2, lookupTimeline C s.messages = some t2 ∧ ∃ x ∈ t2, x.id = n := by
        obtain ⟨x, hx, hxid⟩ := hC
        rw [Messages.get, hl] at hx
        exact ⟨t, hl, x, hx, hxid⟩
      have honly2 : ∀ c t2, (c, t2) ∈ s.messages → c ≠ C → ∀ x ∈ t2, x.id ≠ n := by
        intro c t2 hmem hc x hx
        refine honly c hc x ?_
        rw [Messages.get, lookup_eq_of_mem_nodup s.messages c t2 hkeys hmem]
        exact hx
      obtain ⟨h1, h2⟩ := removeFrom_found n s.messages C hC2 honly2
      exact ⟨h1, fun ch hch => by
        simp only [Messages.remove, Messages.get]
        rw [h2 ch hch]⟩
  · intro s n hkeys habs
    have h := removeFrom_not_found n s.messages (fun c t hmem x hx => by
      refine habs c x ?_
      rw [Messages.get, lookup_eq_of_mem_nodup s.messages c t hkeys hmem]
      exact hx)
    simp only [Messages.remove, h]

/-- **C6 — witness**: a store with channel 0 holding id 7 and channel 1
holding id 8; removing 7 returns channel 0 and leaves channel 1 untouched,
and removing the absent id 9 is a no-op. -/
theorem remove_found_frame_and_absent_noop_witness :
    (((⟨[(0, [⟨7, 0, 0, 1, "x"⟩]), (1, [⟨8, 0, 1, 2, "y"⟩])]⟩ : Messages).remove 7).1 =
        some 0 ∧
      ∀ ch, ch ≠ 0 →
        ((⟨[(0, [⟨7, 0, 0, 1, "x"⟩]), (1, [⟨8, 0, 1, 2, "y"⟩])]⟩ : Messages).remove
            7).2.get ch =
          (⟨[(0, [⟨7, 0, 0, 1, "x"⟩]), (1, [⟨8, 0, 1, 2, "y"⟩])]⟩ : Messages).get ch) ∧
    (⟨[(0, [⟨7, 0, 0, 1, "x"⟩]), (1, [⟨8, 0, 1, 2, "y"⟩])]⟩ : Messages).remove 9 =
      (none, ⟨[(0, [⟨7, 0, 0, 1, "x"⟩]), (1, [⟨8, 0, 1, 2, "y"⟩])]⟩) := by
  constructor
  · refine remove_found_frame_and_absent_noop.1 _ 7 0 (by simp) ?_ ?_
    · exact ⟨⟨7, 0, 0, 1, "x"⟩, by simp [Messages.get, lookupTimeline], rfl⟩
    · intro ch hch x hx
      rw [Messages.get] at hx
      have h0n : ¬ ((0 : Nat) = ch) := fun h2 => hch h2.symm
      by_cases h1 : ch = 1
      · subst h1
        simp only [lookupTimeline, if_neg h0n, if_pos rfl] at hx
        simp at hx
        subst hx
        decide
      · have h1n : ¬ ((1 : Nat) = ch) := fun h2 => h1 h2.symm
        simp only [lookupTimeline, if_neg h0n, if_neg h1n] at hx
        simp at hx
  · refine remove_found_frame_and_absent_noop.2 _ 9 (by simp) ?_
    intro ch x hx
    rw [Messages.get] at hx
    by_cases h0 : ch = 0
    · subst h0
      simp only [lookupTimeline, if_pos rfl] at hx
      simp at hx
      subst hx
      decide
    · have h0n : ¬ ((0 : Nat) = ch) := fun h2 => h0 h2.symm
      by_cases h1 : ch = 1
      · subst h1
        simp only [lookupTimeline, if_neg h0n, if_pos rfl] at hx
        simp at hx
        subst hx
        decide
      · have h1n : ¬ ((1 : Nat) = ch) := fun h2 => h1 h2.symm
        simp only [lookupTimeline, if_neg h0n, if_neg h1n] at hx
        simp at hx

/-- **C10.**  `has` is persistent: adding a message creates its channel key,
adding never drops an existing key, and `remove` deletes timeline entries
but never a channel key — so "loaded but empty" stays distinguishable from
"never fetched". -/
theorem has_channel_persistent :
    (∀ (s : Messages) (m : Message), (s.add m).has m.channel = true) ∧
    (∀ (s : Messages) (m : Message) (ch : Nat),
      s.has ch = true → (s.add m).has ch = true) ∧
    (∀ (s : Messages) (n ch : Nat), (s.remove n).2.has ch = s.has ch) :=
  ⟨has_add_self, has_add_mono, has_remove⟩

/-- **C10 — witness**: after adding a message to channel 0, removing it
again, and adding an unrelated message, `has 0` still holds. -/
theorem has_channel_persistent_witness :
    (((Messages.new.add ⟨1, 0, 0, 5, "a"⟩).remove 1).2.add ⟨2, 0, 1, 9, "z"⟩).has 0 =
      true := by
  refine has_channel_persistent.2.1 _ ⟨2, 0, 1, 9, "z"⟩ 0 ?_
  rw [has_channel_persistent.2.2]
  exact has_channel_persistent.1 Messages.new ⟨1, 0, 0, 5, "a"⟩

/-! ## Connection registry (`src/connections.rs`)

The transport/session library (`synac`) is external; its operations are
abstracted as an outcome environment (`SessionEnv`): each field is the result
the corresponding effectful call would produce during one dial.  Likewise DNS
resolution (`ToSocketAddrs`) is an abstract `resolve` function and the
per-poll non-blocking reads are an abstract `reads` function. -/

structure SocketAddr where
  host : String
  port : Nat
deriving DecidableEq, Repr

/-- Modelled from the spec: `synac::common::DEFAULT_PORT`, the
protocol-defined default port of the external library (exact value is
immaterial to every claim). -/
def DEFAULT_PORT : Nat := 8439

/-- Modelled from the spec: the external protocol's "unknown user" error
code (only distinctness from other codes matters). -/
def ERR_UNKNOWN_USER : Nat := 1

/-- Modelled from the spec: the external protocol's "invalid login" error
code. -/
def ERR_LOGIN_INVALID : Nat := 2

/-- The packets of `synac::common::Packet` that `connections.rs` inspects;
all others are `Other`. -/
inductive Packet where
  | LoginSuccess (token : String) (userId : Nat)
  | ErrPacket (code : Nat)
  | MessageReceive (m : Message)
  | MessageDeleteReceive (msgId : Nat)
  | TypingReceive (author : Nat) (channel : Nat)
  | Other
deriving DecidableEq, Repr

/-- `enum ConnectionError` of connections.rs. -/
inductive ConnectionError where
  | InvalidPacket (p : Packet)
  | InvalidToken
  | InvalidPassword
deriving DecidableEq, Repr

/-- `failure::Error`: either one of the typed connection errors or an error
bubbled up from the external transport/session layer. -/
inductive Error where
  | Conn (e : ConnectionError)
  | Transport (code : Nat)
deriving DecidableEq, Repr

instance {ε α : Type} [DecidableEq ε] [DecidableEq α] : DecidableEq (Except ε α) :=
  fun a b =>
  match a, b with
  | Except.error e1, Except.error e2 => decidable_of_iff (e1 = e2) (by simp)
  | Except.ok v1, Except.ok v2 => decidable_of_iff (v1 = v2) (by simp)
  | Except.error _, Except.ok _ => isFalse (fun hc => Except.noConfusion hc)
  | Except.ok _, Except.error _ => isFalse (fun hc => Except.noConfusion hc)

/-- `struct Synac` (the session handle).  `session`/`listener` are pure
handles in the embedding; the mirrored `State` is represented by the list of
packets applied to it, and the typing tracker by its (user, channel) pairs. -/
structure Synac where
  addr : SocketAddr
  current_channel : Option Nat
  messages : Messages
  typing : List (Nat × Nat)
  state : List Packet
  user : Nat
deriving DecidableEq, Repr

/-- `Synac::new`. -/
def Synac.new (addr : SocketAddr) (user : Nat) : Synac :=
  ⟨addr, none, Messages.new, [], [], user⟩

/-- Outcomes of the effectful session calls made during one dial
(`Session::new`, `login_with_token`, the `read` after it,
`login_with_password`, the `read` after it, `set_nonblocking`). -/
structure SessionEnv where
  newSession : Except Error Unit
  loginTokenSend : Except Error Unit
  tokenRead : Except Error Packet
  loginPasswordSend : Except Error Unit
  passwordRead : Except Error Packet
  setNonblocking : Except Error Unit
deriving DecidableEq, Repr

/-- Result of `Connections::connect`, together with whether the password
provider closure was invoked and whether a refreshed token was written back
to storage. -/
structure ConnectOutcome where
  result : Except Error Synac
  passwordAsked : Bool
  tokenPersisted : Bool
deriving DecidableEq, Repr

/-- The password half of `Connections::connect` (from `if let Some((password,
db)) = password()` on): reaching it at all means the closure is invoked. -/
def connectPassword (env : SessionEnv) (addr : SocketAddr)
    (passwordProvider : Option String) : ConnectOutcome :=
  match passwordProvider with
  | some _pw =>
    match env.loginPasswordSend with
    | Except.error e => ⟨Except.error e, true, false⟩
    | Except.ok _ =>
      match env.passwordRead with
      | Except.error e => ⟨Except.error e, true, false⟩
      | Except.ok (Packet.LoginSuccess _tok userId) =>
        match env.setNonblocking with
        | Except.error e => ⟨Except.error e, true, true⟩
        | Except.ok _ => ⟨Except.ok (Synac.new addr userId), true, true⟩
      | Except.ok (Packet.ErrPacket code) =>
        if code = ERR_LOGIN_INVALID then
          ⟨Except.error (Error.Conn ConnectionError.InvalidPassword), true, false⟩
        else
          ⟨Except.error (Error.Conn (ConnectionError.InvalidPacket (Packet.ErrPacket code))),
            true, false⟩
      | Except.ok p => ⟨Except.error (Error.Conn (ConnectionError.InvalidPacket p)), true, false⟩
  | none => ⟨Except.error (Error.Conn ConnectionError.InvalidToken), true, false⟩

/-- `Connections::connect` (lines 111-144): token login first when a token is
saved, falling through to the password provider only on the two designated
error codes; no token and no credential ends in `InvalidToken`. -/
def connect (env : SessionEnv) (addr : SocketAddr) (_hash : String)
    (token : Option String) (passwordProvider : Option String) : ConnectOutcome :=
  match env.newSession with
  | Except.error e => ⟨Except.error e, false, false⟩
  | Except.ok _ =>
    match token with
    | some _tok =>
      match env.loginTokenSend with
      | Except.error e => ⟨Except.error e, false, false⟩
      | Except.ok _ =>
        match env.tokenRead with
        | Except.error e => ⟨Except.error e, false, false⟩
        | Except.ok (Packet.LoginSuccess _tok2 userId) =>
          match env.setNonblocking with
          | Except.error e => ⟨Except.error e, false, false⟩
          | Except.ok _ => ⟨Except.ok (Synac.new addr userId), false, false⟩
        | Except.ok (Packet.ErrPacket code) =>
          if code = ERR_UNKNOWN_USER ∨ code = ERR_LOGIN_INVALID then
            connectPassword env addr passwordProvider
          else
            ⟨Except.error (Error.Conn (ConnectionError.InvalidPacket (Packet.ErrPacket code))),
              false, false⟩
        | Except.ok p =>
          ⟨Except.error (Error.Conn (ConnectionError.InvalidPacket p)), false, false⟩
    | none => connectPassword env addr passwordProvider

/-- `enum Connection`: a pending dial (whose eventual result is already
determined by the environment, mirroring the deterministic background
thread) or a resolved one. -/
inductive Connection where
  | Connecting (res : Except Error Synac)
  | Connected (res : Except Error Synac)
deriving DecidableEq, Repr

/-- The result a `Connection::join` exposes. -/
def connResult : Connection → Except Error Synac
  | Connection.Connecting r => r
  | Connection.Connected r => r

/-- `Connection::join` collapses `Connecting` to `Connected` idempotently. -/
def joinConn (c : Connection) : Connection :=
  Connection.Connected (connResult c)

/-- `HashMap::insert` on the registry map (association list embedding). -/
def insertServer (m : List (SocketAddr × Connection)) (a : SocketAddr)
    (c : Connection) : List (SocketAddr × Connection) :=
  match m with
  | [] => [(a, c)]
  | (a2, c2) :: rest =>
    if a2 = a then (a, c) :: rest else (a2, c2) :: insertServer rest a c

def lookupServer (a : SocketAddr) : List (SocketAddr × Connection) → Option Connection
  | [] => none
  | (a2, c2) :: rest => if a2 = a then some c2 else lookupServer a rest

/-! ## Address parsing (`parse_addr`, lines 207-218) -/

/-- `input.rsplitn(2, ':')` on a character list: split at the **last**
occurrence of `c`, or `none` when absent. -/
def rsplitCharList (c : Char) : List Char → Option (List Char × List Char)
  | [] => none
  | x :: rest =>
    match rsplitCharList c rest with
    | some (a, b) => some (x :: a, b)
    | none => if x = c then some ([], rest) else none

def rsplitColon (s : String) : Option (String × String) :=
  (rsplitCharList ':' s.toList).map (fun p => (String.mk p.1, String.mk p.2))

def digitsToNat (l : List Char) : Nat :=
  l.foldl (fun acc c => acc * 10 + (c.toNat - 48)) 0

/-- Rust `str::parse::<u16>`: optional leading plus sign, at least one digit,
value at most 65535. -/
def parseU16 (s : String) : Option Nat :=
  let l := s.toList
  let l2 := if l.head? = some '+' then l.drop 1 else l
  if l2 ≠ [] ∧ l2.all Char.isDigit then
    if digitsToNat l2 ≤ 65535 then some (digitsToNat l2) else none
  else none

/-- `parse_addr`: `host:port` (last colon wins) with a parsed `u16` port, or
the bare host with the protocol default port; `resolve` abstracts
`ToSocketAddrs` (taking the first resolved address or none). -/
def parse_addr (resolve : String → Nat → Option SocketAddr) (input : String) :
    Option SocketAddr :=
  match rsplitColon input with
  | some (host, portStr) =>
    match parseU16 portStr with
    | some port => resolve host port
    | none => none
  | none => resolve input DEFAULT_PORT

/-! ## `Connections::new` (lines 77-110) -/

/-- One loop iteration of `Connections::new`: skip the row when its address
does not parse, otherwise insert a pending dial whose (deterministic) result
is an unattended `connect` — saved token, `|| None` password provider. -/
def newStep (resolve : String → Nat → Option SocketAddr)
    (env : SocketAddr → SessionEnv)
    (servers : List (SocketAddr × Connection))
    (row : String × String × Option String) : List (SocketAddr × Connection) :=
  match parse_addr resolve row.1 with
  | none => servers
  | some addr =>
    insertServer servers addr
      (Connection.Connecting (connect (env addr) addr row.2.1 row.2.2 none).result)

/-- `Connections::new`: fold the persisted `(ip, hash, token)` rows into the
registry map. -/
def Connections.new (resolve : String → Nat → Option SocketAddr)
    (env : SocketAddr → SessionEnv)
    (rows : List (String × String × Option String)) :
    List (SocketAddr × Connection) :=
  rows.foldl (newStep resolve env) []

/-! ## `Connections::try_read` (lines 176-204) -/

/-- Modelled from the spec: `Typing::insert` (typing.rs is not under `src/`)
upserts the entry for a user — at most one live entry per user, later
insertion overwrites the channel.  (The reset of its expiry timer is a
real-time concern outside this embedding.) -/
def typingInsert (l : List (Nat × Nat)) (user channel : Nat) : List (Nat × Nat) :=
  (user, channel) :: l.filter (fun e => e.1 != user)

/-- The packet dispatch inside `try_read`: apply the packet to the mirrored
state, then update message store / typing tracker and report the affected
channel exactly as the `match packet` in the source does. -/
def processPacket (synac : Synac) (p : Packet) : Synac × Option Nat :=
  let s2 : Synac := { synac with state := synac.state ++ [p] }
  match p with
  | Packet.MessageReceive m => ({ s2 with messages := s2.messages.add m }, some m.channel)
  | Packet.MessageDeleteReceive msgId =>
    let r := s2.messages.remove msgId
    ({ s2 with messages := r.2 }, r.1)
  | Packet.TypingReceive author channel =>
    if author ≠ s2.user then
      ({ s2 with typing := typingInsert s2.typing author channel }, some channel)
    else (s2, none)
  | _ => (s2, none)

/-- Result of one `try_read` call: the updated registry map, the list of
callback invocations `(addr, packet, affected channel)`, and the propagated
transport result. -/
structure PollOutcome where
  servers : List (SocketAddr × Connection)
  events : List (SocketAddr × Packet × Option Nat)
  result : Except Error Unit
deriving DecidableEq, Repr

/-- The `for server in servers.values_mut()` loop of `try_read`: join each
connection, skip failed ones, do one non-blocking read (`reads`), dispatch a
packet if present, and abort the whole poll on a transport error, leaving
the remaining entries untouched. -/
def tryReadGo (reads : SocketAddr → Except Error (Option Packet)) :
    List (SocketAddr × Connection) → PollOutcome
  | [] => ⟨[], [], Except.ok ()⟩
  | (a, conn) :: rest =>
    match connResult conn with
    | Except.error _ =>
      let o := tryReadGo reads rest
      ⟨(a, joinConn conn) :: o.servers, o.events, o.result⟩
    | Except.ok synac =>
      match reads a with
      | Except.error e => ⟨(a, joinConn conn) :: rest, [], Except.error e⟩
      | Except.ok none =>
        let o := tryReadGo reads rest
        ⟨(a, joinConn conn) :: o.servers, o.events, o.result⟩
      | Except.ok (some p) =>
        let pr := processPacket synac p
        let o := tryReadGo reads rest
        ⟨(a, Connection.Connected (Except.ok pr.1)) :: o.servers,
          (a, p, pr.2) :: o.events, o.result⟩

/-- `Connections::try_read`: non-blocking `try_lock` first — when the map
lock is contended the whole call is a silent no-op returning `Ok(())`. -/
def try_read (reads : SocketAddr → Except Error (Option Packet))
    (lockFree : Bool) (servers : List (SocketAddr × Connection)) : PollOutcome :=
  if lockFree then tryReadGo reads servers else ⟨servers, [], Except.ok ()⟩

/-! ## Lemmas about the registry map -/

theorem lookup_insertServer_self (m : List (SocketAddr × Connection))
    (a : SocketAddr) (c : Connection) :
    lookupServer a (insertServer m a c) = some c := by
  induction m with
  | nil => simp [insertServer, lookupServer]
  | cons hd tl ih =>
    obtain ⟨a2, c2⟩ := hd
    by_cases h : a2 = a
    · simp [insertServer, h, lookupServer]
    · simp only [insertServer, if_neg h, lookupServer]
      exact ih

theorem lookup_insertServer_other (m : List (SocketAddr × Connection))
    (a b : SocketAddr) (c : Connection) (h : a ≠ b) :
    lookupServer b (insertServer m a c) = lookupServer b m := by
  induction m with
  | nil => simp [insertServer, lookupServer, h]
  | cons hd tl ih =>
    obtain ⟨a2, c2⟩ := hd
    by_cases h2 : a2 = a
    · subst h2
      simp only [insertServer, if_pos rfl, lookupServer]
      rw [if_neg h, if_neg h]
    · simp only [insertServer, if_neg h2, lookupServer]
      by_cases h3 : a2 = b
      · rw [if_pos h3, if_pos h3]
      · rw [if_neg h3, if_neg h3]
        exact ih

/-- The dial result for the **last** row of the list that parses to `addr`
(later rows overwrite earlier ones in the map). -/
def lastDial (resolve : String → Nat → Option SocketAddr)
    (env : SocketAddr → SessionEnv) (addr : SocketAddr) :
    List (String × String × Option String) → Option (Except Error Synac)
  | [] => none
  | row :: rest =>
    match lastDial resolve env addr rest with
    | some r => some r
    | none =>
      if parse_addr resolve row.1 = some addr then
        some (connect (env addr) addr row.2.1 row.2.2 none).result
      else none

theorem new_lookup_char (resolve : String → Nat → Option SocketAddr)
    (env : SocketAddr → SessionEnv) :
    ∀ (rows : List (String × String × Option String))
      (acc : List (SocketAddr × Connection)) (addr : SocketAddr),
      lookupServer addr (rows.foldl (newStep resolve env) acc) =
        match lastDial resolve env addr rows with
        | some r => some (Connection.Connecting r)
        | none => lookupServer addr acc := by
  intro rows
  induction rows with
  | nil => intro acc addr; rfl
  | cons row rest ih =>
    intro acc addr
    rw [List.foldl_cons, ih]
    rcases hld : lastDial resolve env addr rest with _ | r
    · have hunf : lastDial resolve env addr (row :: rest) =
          (if parse_addr resolve row.1 = some addr then
            some (connect (env addr) addr row.2.1 row.2.2 none).result
          else none) := by
        show (match lastDial resolve env addr rest with
          | some r => some r
          | none =>
            if parse_addr resolve row.1 = some addr then
              some (connect (env addr) addr row.2.1 row.2.2 none).result
            else none) = _
        rw [hld]
      rw [hunf]
      simp only [hld]
      rcases hp : parse_addr resolve row.1 with _ | a2
      · simp only [newStep, hp]
        simp
      · by_cases ha : a2 = addr
        · subst ha
          simp only [newStep, hp]
          simp [lookup_insertServer_self]
        · have hcond : ¬ (some a2 = some addr) := fun hc => ha (Option.some.inj hc)
          simp only [newStep, hp]
          rw [lookup_insertServer_other _ _ _ _ ha]
          simp [hcond]
    · have hunf : lastDial resolve env addr (row :: rest) = some r := by
        show (match lastDial resolve env addr rest with
          | some r => some r
          | none =>
            if parse_addr resolve row.1 = some addr then
              some (connect (env addr) addr row.2.1 row.2.2 none).result
            else none) = _
        rw [hld]
      rw [hunf]

theorem lastDial_eq_none (resolve : String → Nat → Option SocketAddr)
    (env : SocketAddr → SessionEnv) (addr : SocketAddr) :
    ∀ rows, (∀ row ∈ rows, parse_addr resolve row.1 ≠ some addr) →
      lastDial resolve env addr rows = none := by
  intro rows
  induction rows with
  | nil => intro h; rfl
  | cons row rest ih =>
    intro h
    have h1 := ih (fun r hr => h r (List.mem_cons_of_mem _ hr))
    simp only [lastDial, h1]
    rw [if_neg (h row (List.mem_cons_self _ _))]

theorem lastDial_isSome (resolve : String → Nat → Option SocketAddr)
    (env : SocketAddr → SessionEnv) (addr : SocketAddr) :
    ∀ rows row, row ∈ rows → parse_addr resolve row.1 = some addr →
      (lastDial resolve env addr rows).isSome = true := by
  intro rows
  induction rows with
  | nil => intro row h; exact absurd h (List.not_mem_nil _)
  | cons hd rest ih =>
    intro row hmem hp
    rcases hld : lastDial resolve env addr rest with _ | r
    · rcases List.mem_cons.mp hmem with h2 | h2
      · subst h2
        simp only [lastDial, hld]
        rw [if_pos hp]
        rfl
      · have := ih row h2 hp
        rw [hld] at this
        exact absurd this (by simp)
    · simp only [lastDial, hld]
      rfl

theorem lastDial_append (resolve : String → Nat → Option SocketAddr)
    (env : SocketAddr → SessionEnv) (addr : SocketAddr) :
    ∀ l1 l2, lastDial resolve env addr (l1 ++ l2) =
      match lastDial resolve env addr l2 with
      | some r => some r
      | none => lastDial resolve env addr l1 := by
  intro l1 l2
  induction l1 with
  | nil =>
    rcases h : lastDial resolve env addr l2 with _ | r
    · simp only [List.nil_append, h, lastDial]
    · simp only [List.nil_append, h]
  | cons row rest ih =>
    have hunf : lastDial resolve env addr ((row :: rest) ++ l2) =
        match lastDial resolve env addr (rest ++ l2) with
        | some r => some r
        | none =>
          if parse_addr resolve row.1 = some addr then
            some (connect (env addr) addr row.2.1 row.2.2 none).result
          else none := rfl
    rw [hunf, ih]
    rcases h : lastDial resolve env addr l2 with _ | r
    · rfl
    · rfl

/-! ## Claims about the Connection Registry -/

/-- A concrete resolver used by the counterexamples/witnesses. -/
def exResolve : String → Nat → Option SocketAddr :=
  fun h p => if h = "example.com" then some ⟨h, p⟩ else none

/-- An all-successful session environment whose login reads return a packet
that is neither `LoginSuccess` nor a designated error code. -/
def exEnvOk : SessionEnv :=
  ⟨Except.ok (), Except.ok (), Except.ok Packet.Other, Except.ok (),
    Except.ok Packet.Other, Except.ok ()⟩

/-- **C3 — counterexample.**  For the single persisted row
`("example.com", hash, no token)`, the unattended dial fails with
`InvalidToken` (no token and no password fallback), yet `Connections::new`
*does* store that address in the live map, as a pending `Connection` that
resolves to the failure — contradicting "that address is absent from the
live connection map". -/
theorem startup_failed_dial_still_in_map :
    lookupServer ⟨"example.com", DEFAULT_PORT⟩
        (Connections.new exResolve (fun _ => exEnvOk) [("example.com", "h", none)]) =
      some (Connection.Connecting
        (Except.error (Error.Conn ConnectionError.InvalidToken))) := by
  rfl

/-- **C3 — amended.**  After `Connections::new`, an address is present in the
map iff some persisted row parses to it — regardless of whether its dial
succeeded; only rows whose address fails to parse are skipped.  In
particular the entry for the last row parsing to an address holds exactly
that row's (possibly failed) dial result, wrapped as a pending
`Connection`. -/
theorem startup_map_keeps_failed_dials (resolve : String → Nat → Option SocketAddr)
    (env : SocketAddr → SessionEnv) (rows : List (String × String × Option String))
    (addr : SocketAddr) :
    ((∃ row ∈ rows, parse_addr resolve row.1 = some addr) →
      ∃ res, lookupServer addr (Connections.new resolve env rows) =
        some (Connection.Connecting res)) ∧
    ((∀ row ∈ rows, parse_addr resolve row.1 ≠ some addr) →
      lookupServer addr (Connections.new resolve env rows) = none) ∧
    (∀ pre row post, rows = pre ++ row :: post →
      parse_addr resolve row.1 = some addr →
      (∀ r ∈ post, parse_addr resolve r.1 ≠ some addr) →
      lookupServer addr (Connections.new resolve env rows) =
        some (Connection.Connecting
          (connect (env addr) addr row.2.1 row.2.2 none).result)) := by
  refine ⟨?_, ?_, ?_⟩
  · intro ⟨row, hmem, hp⟩
    have h1 := lastDial_isSome resolve env addr rows row hmem hp
    rw [Connections.new, new_lookup_char]
    rcases h2 : lastDial resolve env addr rows with _ | r
    · rw [h2] at h1
      exact absurd h1 (by simp)
    · exact ⟨r, rfl⟩
  · intro h
    rw [Connections.new, new_lookup_char, lastDial_eq_none resolve env addr rows h]
    rfl
  · intro pre row post hrows hp hpost
    rw [Connections.new, new_lookup_char, hrows, lastDial_append]
    have hpostn := lastDial_eq_none resolve env addr post hpost
    simp only [lastDial, hpostn]
    rw [if_pos hp]

/-- **C3 — witness** for the amended claim at a concrete row list. -/
theorem startup_map_keeps_failed_dials_witness :
    (∃ res, lookupServer ⟨"example.com", DEFAULT_PORT⟩
        (Connections.new exResolve (fun _ => exEnvOk) [("example.com", "h", none)]) =
      some (Connection.Connecting res)) ∧
    lookupServer ⟨"other.com", 1⟩
        (Connections.new exResolve (fun _ => exEnvOk) [("example.com", "h", none)]) =
      none := by
  constructor
  · exact (startup_map_keeps_failed_dials exResolve (fun _ => exEnvOk)
      [("example.com", "h", none)] ⟨"example.com", DEFAULT_PORT⟩).1
      ⟨("example.com", "h", none), List.mem_cons_self _ _, rfl⟩
  · exact (startup_map_keeps_failed_dials exResolve (fun _ => exEnvOk)
      [("example.com", "h", none)] ⟨"other.com", 1⟩).2.1
      (by intro row hmem
          rcases List.mem_cons.mp hmem with h2 | h2
          · subst h2
            intro hc
            exact Option.noConfusion hc (by intro h3; exact absurd h3.symm (by decide))
          · exact absurd h2 (List.not_mem_nil _))

/-- **C4.**  When a token is supplied and the server answers the token login
with `LoginSuccess`, the password provider is never invoked, and (the
remaining session call succeeding) `connect` returns the authenticated
session handle built from the reported user id. -/
theorem dial_token_success_no_password (env : SessionEnv) (addr : SocketAddr)
    (hash tok tokStr : String) (userId : Nat) (pw : Option String)
    (hnew : env.newSession = Except.ok ())
    (hsend : env.loginTokenSend = Except.ok ())
    (hread : env.tokenRead = Except.ok (Packet.LoginSuccess tokStr userId)) :
    (connect env addr hash (some tok) pw).passwordAsked = false ∧
      (env.setNonblocking = Except.ok () →
        (connect env addr hash (some tok) pw).result =
          Except.ok (Synac.new addr userId)) := by
  constructor
  · rcases hnb : env.setNonblocking with e | u
    · simp [connect, hnew, hsend, hread, hnb]
    · simp [connect, hnew, hsend, hread, hnb]
  · intro hnb
    simp [connect, hnew, hsend, hread, hnb]

/-- **C4 — witness** at a concrete environment answering the token login
with `LoginSuccess`. -/
theorem dial_token_success_no_password_witness :
    (connect ⟨Except.ok (), Except.ok (), Except.ok (Packet.LoginSuccess "newtok" 42),
        Except.ok (), Except.ok Packet.Other, Except.ok ()⟩
      ⟨"example.com", 1⟩ "h" (some "tok") (some "pw")).passwordAsked = false ∧
    (connect ⟨Except.ok (), Except.ok (), Except.ok (Packet.LoginSuccess "newtok" 42),
        Except.ok (), Except.ok Packet.Other, Except.ok ()⟩
      ⟨"example.com", 1⟩ "h" (some "tok") (some "pw")).result =
      Except.ok (Synac.new ⟨"example.com", 1⟩ 42) := by
  have h := dial_token_success_no_password
    ⟨Except.ok (), Except.ok (), Except.ok (Packet.LoginSuccess "newtok" 42),
      Except.ok (), Except.ok Packet.Other, Except.ok ()⟩
    ⟨"example.com", 1⟩ "h" "tok" "newtok" 42 (some "pw") rfl rfl rfl
  exact ⟨h.1, h.2 rfl⟩

/-- **C5.**  With no saved token and a password provider returning no
credential, `connect` fails with the typed invalid/missing-token error
("no usable credential") rather than succeeding or panicking; the total
embedding returns the error value. -/
theorem dial_no_credential (env : SessionEnv) (addr : SocketAddr) (hash : String)
    (hnew : env.newSession = Except.ok ()) :
    (connect env addr hash none none).result =
      Except.error (Error.Conn ConnectionError.InvalidToken) := by
  simp [connect, hnew, connectPassword]

/-- **C5 — witness** at a concrete all-successful transport environment. -/
theorem dial_no_credential_witness :
    (connect exEnvOk ⟨"example.com", 1⟩ "h" none none).result =
      Except.error (Error.Conn ConnectionError.InvalidToken) :=
  dial_no_credential exEnvOk ⟨"example.com", 1⟩ "h" rfl

/-- **C7.**  `try_read` does no work while reporting success in both
degenerate cases: a contended map lock returns immediately with the map,
callback log and state untouched, and an empty registry reads nothing and
returns `Ok(())`. -/
theorem poll_contended_or_empty_noop :
    (∀ (reads : SocketAddr → Except Error (Option Packet))
        (servers : List (SocketAddr × Connection)),
      try_read reads false servers = ⟨servers, [], Except.ok ()⟩) ∧
    (∀ (reads : SocketAddr → Except Error (Option Packet)) (lockFree : Bool),
      try_read reads lockFree [] = ⟨[], [], Except.ok ()⟩) := by
  constructor
  · intro reads servers
    rfl
  · intro reads lockFree
    cases lockFree <;> rfl

/-- **C8.**  If the non-blocking read of some connection fails with a
transport error, the whole poll returns that error: every entry after the
offending one is left exactly as it was (not even joined, hence not read),
and the offending connection stays in the map with its session handle
unchanged (merely collapsed to `Connected`). -/
theorem poll_read_error_aborts (reads : SocketAddr → Except Error (Option Packet))
    (pre : List (SocketAddr × Connection)) (a : SocketAddr) (conn : Connection)
    (post : List (SocketAddr × Connection)) (synac : Synac) (e : Error)
    (hjoin : connResult conn = Except.ok synac)
    (herr : reads a = Except.error e)
    (hpre : ∀ b c, (b, c) ∈ pre → ∀ s, connResult c = Except.ok s →
      ∃ op, reads b = Except.ok op) :
    ∃ pre2 evs, tryReadGo reads (pre ++ (a, conn) :: post) =
      ⟨pre2 ++ (a, Connection.Connected (Except.ok synac)) :: post, evs,
        Except.error e⟩ ∧
      pre2.length = pre.length := by
  induction pre with
  | nil =>
    refine ⟨[], [], ?_, rfl⟩
    rw [List.nil_append]
    simp only [tryReadGo, hjoin, herr, joinConn]
    rfl
  | cons hd tl ih =>
    obtain ⟨b, c⟩ := hd
    obtain ⟨pre2, evs, heq, hlen⟩ :=
      ih (fun b2 c2 h2 s hs => hpre b2 c2 (List.mem_cons_of_mem _ h2) s hs)
    rcases hc : connResult c with e2 | s
    · refine ⟨(b, joinConn c) :: pre2, evs, ?_, by simp [hlen]⟩
      rw [List.cons_append]
      simp only [tryReadGo, hc, heq]
      rfl
    · obtain ⟨op, hop⟩ := hpre b c (List.mem_cons_self _ _) s hc
      rcases op with _ | p
      · refine ⟨(b, joinConn c) :: pre2, evs, ?_, by simp [hlen]⟩
        rw [List.cons_append]
        simp only [tryReadGo, hc, hop, heq]
        rfl
      · refine ⟨(b, Connection.Connected (Except.ok (processPacket s p).1)) :: pre2,
          (b, p, (processPacket s p).2) :: evs, ?_, by simp [hlen]⟩
        rw [List.cons_append]
        simp only [tryReadGo, hc, hop, heq]
        rfl

/-- **C8 — witness**: a one-entry registry whose read fails with a transport
error; the poll propagates the error and keeps the entry. -/
theorem poll_read_error_aborts_witness :
    ∃ pre2 evs,
      tryReadGo (fun _ => Except.error (Error.Transport 3))
          ([] ++ (⟨"example.com", 1⟩,
            Connection.Connected (Except.ok (Synac.new ⟨"example.com", 1⟩ 7))) :: []) =
        ⟨pre2 ++ (⟨"example.com", 1⟩,
            Connection.Connected (Except.ok (Synac.new ⟨"example.com", 1⟩ 7))) :: [],
          evs, Except.error (Error.Transport 3)⟩ ∧
      pre2.length = ([] : List (SocketAddr × Connection)).length :=
  poll_read_error_aborts (fun _ => Except.error (Error.Transport 3)) []
    ⟨"example.com", 1⟩
    (Connection.Connected (Except.ok (Synac.new ⟨"example.com", 1⟩ 7))) []
    (Synac.new ⟨"example.com", 1⟩ 7) (Error.Transport 3) rfl rfl
    (fun b c h => absurd h (List.not_mem_nil _))

/-- **C9.**  `parse_addr` uses the protocol default port for a bare host,
the parsed port for `host:port`, rejects any input whose port segment does
not parse as a `u16`, and totally returns `none` whenever resolution fails —
it never panics (the embedding is a total function into `Option`). -/
theorem parse_addr_spec (resolve : String → Nat → Option SocketAddr) :
    parse_addr resolve "example.com" = resolve "example.com" DEFAULT_PORT ∧
    parse_addr resolve "example.com:9000" = resolve "example.com" 9000 ∧
    (∀ s host portStr, rsplitColon s = some (host, portStr) →
      parseU16 portStr = none → parse_addr resolve s = none) ∧
    (∀ s, (∀ h p, resolve h p = none) → parse_addr resolve s = none) := by
  refine ⟨?_, ?_, ?_, ?_⟩
  · have h : rsplitColon "example.com" = none := by rfl
    simp [parse_addr, h]
  · have h : rsplitColon "example.com:9000" = some ("example.com", "9000") := by rfl
    have h2 : parseU16 "9000" = some 9000 := by rfl
    simp [parse_addr, h, h2]
  · intro s host portStr h1 h2
    simp [parse_addr, h1, h2]
  · intro s hres
    rcases h1 : rsplitColon s with _ | ⟨host, portStr⟩
    · simp [parse_addr, h1, hres]
    · rcases h2 : parseU16 portStr with _ | port
      · simp [parse_addr, h1, h2]
      · simp [parse_addr, h1, h2, hres]

/-- **C9 — witness**: a bad port segment and a failing resolver both give
`none`. -/
theorem parse_addr_spec_witness :
    parse_addr exResolve "example.com:notaport" = none ∧
    parse_addr (fun _ _ => none) "whatever" = none :=
  ⟨(parse_addr_spec exResolve).2.2.1 "example.com:notaport" "example.com" "notaport"
      (by rfl) (by rfl),
    (parse_addr_spec (fun _ _ => none)).2.2.2 "whatever" (fun _ _ => rfl)⟩

end ClientGtk
